import Mathlib

/-!
Verification development for the option_backtest repository.

The source files (src/backtester/options.py, strategy.py, pds.py) are shallowly
embedded below.  Dates (numpy datetime64 values, day resolution) are modelled as
integers counting days; prices, strikes and greeks (Python floats) are modelled
as rationals; Python dicts keyed by expiration are modelled as insertion-ordered
association lists; raised exceptions and crashing lookups are modelled with
Option / Except result types.  Python truthiness of check_date (which returns
False when a date is absent and the integer index when present, so that index 0
is falsy) is modelled explicitly.
-/

namespace Backtest

/-- Option type field of a contract (options.py, opt_type). -/
inductive OptType
  | call
  | put
deriving DecidableEq, Repr

/-- Price convention selector for open_px / close_px ("bid" | "ask" | "mid"). -/
inductive PxConv
  | bid
  | ask
  | mid
deriving DecidableEq, Repr

/-- Leg side field ("l" | "s"). -/
inductive Side
  | l
  | s
deriving DecidableEq, Repr

/-- One option quote row (class Option in options.py).  The ticker is stored
already uppercased, as the Python constructor normalizes it. -/
structure Contract where
  ticker : String
  quoteDate : Int
  expiration : Int
  strike : Rat
  optType : OptType
  priceOpen : Rat
  priceHigh : Rat
  priceLow : Rat
  priceClose : Rat
  bid : Rat
  ask : Rat
  underlyingPx : Rat
  iv : Rat
  delta : Rat
  gamma : Rat
  theta : Rat
  vega : Rat
  rho : Rat
deriving DecidableEq, Repr

/-- Moneyness property: underlying / strike for calls, strike / underlying for
puts (options.py lines 70-75). -/
def Contract.moneyness (c : Contract) : Rat :=
  match c.optType with
  | OptType.call => c.underlyingPx / c.strike
  | OptType.put => c.strike / c.underlyingPx

/-- Days to expiration property (options.py lines 77-79). -/
def Contract.dte (c : Contract) : Int :=
  c.expiration - c.quoteDate

/-- Spread property: ask - bid (options.py lines 81-83). -/
def Contract.spread (c : Contract) : Rat :=
  c.ask - c.bid

/-- Mid property: (bid + ask) / 2 (options.py lines 85-87). -/
def Contract.mid (c : Contract) : Rat :=
  (c.bid + c.ask) / 2

/-- Identity-mismatch errors raised by OptionChain.add_option. -/
inductive ChainError
  | tickerMismatch
  | dateMismatch
deriving DecidableEq, Repr

/-- An option chain: identity fields plus the insertion-ordered mapping from
expiration date to the list of contracts (class OptionChain in options.py). -/
structure OptionChain where
  ticker : String
  quoteDate : Int
  chain : List (Int × List Contract)
deriving DecidableEq, Repr

/-- Lookup of a group by expiration key, first match (Python dict access). -/
def assocFind (k : Int) : List (Int × List Contract) → Option (List Contract)
  | [] => none
  | p :: rest => if p.1 = k then some p.2 else assocFind k rest

/-- Append a contract to the group of its key, creating the group at the end
when the key is new (the dict update in add_option, options.py lines 102-105). -/
def assocAppend (k : Int) (c : Contract) :
    List (Int × List Contract) → List (Int × List Contract)
  | [] => [(k, [c])]
  | p :: rest =>
      if p.1 = k then (p.1, p.2 ++ [c]) :: rest else p :: assocAppend k c rest

/-- OptionChain.add_option (options.py lines 96-105).  The result pair carries
the chain state after the call together with the raised exception, if any; the
Python method raises before touching the dict, so on a mismatch the chain
component is the unchanged receiver. -/
def OptionChain.add_option (oc : OptionChain) (c : Contract) :
    OptionChain × Option ChainError :=
  if c.ticker ≠ oc.ticker then (oc, some ChainError.tickerMismatch)
  else if c.quoteDate ≠ oc.quoteDate then (oc, some ChainError.dateMismatch)
  else ({ oc with chain := assocAppend c.expiration c oc.chain }, none)

/-- Add a list of contracts through add_option, keeping the chain state.  Every
filter method builds its result chain this way; in those calls the identity
fields always match (the contracts come from a chain with the same ticker and
quote date), so no exception can actually be raised there. -/
def addAll (oc : OptionChain) (cs : List Contract) : OptionChain :=
  cs.foldl (fun acc c => (acc.add_option c).1) oc

/-- First index of a value in a list (the Python list .index method, as an
Option instead of raising ValueError). -/
def firstIdxOf {α : Type} [DecidableEq α] (x : α) : List α → Option Nat
  | [] => none
  | y :: ys => if y = x then some 0 else (firstIdxOf x ys).map (· + 1)

/-- Minimum of a list (Python min, as an Option instead of raising on []). -/
def listMin {α : Type} [LinearOrder α] : List α → Option α
  | [] => none
  | x :: xs => some (xs.foldl min x)

/-- Absolute value of a rational (Python abs), spelled through max so that the
kernel can evaluate it on concrete inputs. -/
def ratAbs (x : Rat) : Rat := max x (-x)

theorem ratAbs_eq_abs (x : Rat) : ratAbs x = |x| := abs_eq_max_neg.symm

/-- Floor of a rational, spelled through the numerator and denominator so that
the kernel can evaluate it on concrete inputs. -/
def ratFloor (a : Rat) : Int := a.num / (a.den : Int)

theorem ratFloor_eq_floor (a : Rat) : ratFloor a = ⌊a⌋ := Rat.floor_def.symm

/-- OptionChain.filter_expiry (options.py lines 107-118): pick the key at
minimal absolute day distance from the target (first minimum on ties) and
rebuild a chain from just that group.  The none branches correspond to the
ValueError Python raises on an empty chain (min of an empty sequence); the
remaining unreachable branches exist only to keep the function total. -/
def OptionChain.filter_expiry (oc : OptionChain) (expiry : Int) :
    Option OptionChain :=
  let dates := oc.chain.map (·.1)
  let daysDelta := dates.map (fun d => |d - expiry|)
  match listMin daysDelta with
  | none => none
  | some m =>
      match firstIdxOf m daysDelta with
      | none => none
      | some i =>
          match dates.get? i with
          | none => none
          | some k =>
              match assocFind k oc.chain with
              | none => none
              | some g => some (addAll ⟨oc.ticker, oc.quoteDate, []⟩ g)

/-- OptionChain.filter_dte (options.py lines 120-123). -/
def OptionChain.filter_dte (oc : OptionChain) (dte : Int) : Option OptionChain :=
  oc.filter_expiry (oc.quoteDate + dte)

/-- OptionChain.filter_type (options.py lines 125-135): flatten all groups and
rebuild a chain from contracts of the requested type. -/
def OptionChain.filter_type (oc : OptionChain) (ty : OptType) : OptionChain :=
  let optionsList := (oc.chain.map (·.2)).flatten
  addAll ⟨oc.ticker, oc.quoteDate, []⟩ (optionsList.filter (fun c => c.optType = ty))

/-- One step of the pop loop in filter_moneyness: option_list.pop at the first
index whose delta equals the target, removing the same position from the
parallel delta list (options.py lines 150-155).  none models the ValueError
raised by .index when the target no longer occurs. -/
def popFirst (m : Rat) :
    List Contract → List Rat → Option (Contract × List Contract × List Rat)
  | o :: os, d :: ds =>
      if d = m then some (o, os, ds)
      else (popFirst m os ds).map (fun r => (r.1, o :: r.2.1, d :: r.2.2))
  | _, _ => none

/-- The while loop of filter_moneyness: repeatedly pop the first remaining
contract whose delta equals the fixed target, stopping on ValueError (break) or
when the list is drained.  The fuel argument is the initial list length, which
bounds the number of iterations since every iteration pops one element. -/
def popLoop (m : Rat) : Nat → List Contract → List Rat → List Contract
  | 0, _, _ => []
  | fuel + 1, os, ds =>
      match popFirst m os ds with
      | none => []
      | some (o, os2, ds2) => o :: popLoop m fuel os2 ds2

/-- The per-group body of filter_moneyness (options.py lines 142-155): compute
the delta of every contract from the target moneyness, take the minimum once,
and run the pop loop with that fixed target.  The none branch of listMin
corresponds to the ValueError Python would raise on an empty group, which
cannot arise for chains built through add_option. -/
def selectGroup (tgt : Rat) (g : List Contract) : List Contract :=
  let deltas := g.map (fun o => ratAbs (o.moneyness - tgt))
  match listMin deltas with
  | none => []
  | some m => popLoop m g.length g deltas

/-- OptionChain.filter_moneyness (options.py lines 137-160): run the pop loop
on every expiration group, concatenate the selected contracts, and rebuild a
chain from them via add_option. -/
def OptionChain.filter_moneyness (oc : OptionChain) (tgt : Rat) : OptionChain :=
  let results := (oc.chain.map (fun p => selectGroup tgt p.2)).flatten
  addAll ⟨oc.ticker, oc.quoteDate, []⟩ results

/-- First contract of the first expiration group
(list(result.chain.values())[0][0] in options.py line 170), as an Option
instead of raising IndexError. -/
def firstContract (oc : OptionChain) : Option Contract :=
  oc.chain.head?.bind (fun p => p.2.head?)

/-- OptionChain.get_option for a date-valued expiry argument (options.py lines
162-170, isinstance branch taking filter_expiry): filter_type, then
filter_moneyness, then filter_expiry, then the first contract of the first
group. -/
def OptionChain.get_option (oc : OptionChain) (expiry : Int) (ty : OptType)
    (mny : Rat) : Option Contract :=
  ((oc.filter_type ty).filter_moneyness mny).filter_expiry expiry |>.bind firstContract

/-- OptionChain.get_option for an integer day-offset expiry argument
(options.py lines 162-170, isinstance branch taking filter_dte). -/
def OptionChain.get_option_dte (oc : OptionChain) (dte : Int) (ty : OptType)
    (mny : Rat) : Option Contract :=
  ((oc.filter_type ty).filter_moneyness mny).filter_dte dte |>.bind firstContract

/-!
Calendar functions.  Leg.check_date (strategy.py lines 222-226) and
PDS.check_date (pds.py lines 236-240) return False when the date is absent from
the trading-date array and the integer index when it is present.  Callers use
the returned value either in a boolean context, where the index 0 is falsy just
like False, or in index arithmetic, where False behaves as the integer 0.
Both views are modelled below.
-/

/-- The index of a date in the trading-date sequence, when present (first
occurrence; trading dates are unique in the data). -/
def checkDateFind (dates : List Int) (d : Int) : Option Nat :=
  firstIdxOf d dates

/-- Python truthiness of check_date: true exactly when the date is present at a
nonzero index.  A date sitting at index 0 is indistinguishable from an absent
date for every boolean use of check_date. -/
def checkDateTruthy (dates : List Int) (d : Int) : Bool :=
  match checkDateFind dates d with
  | none => false
  | some i => decide (i ≠ 0)

/-- Python integer coercion of check_date used in index arithmetic: the index
when present, and 0 (the value of False) when absent. -/
def checkDateVal (dates : List Int) (d : Int) : Int :=
  match checkDateFind dates d with
  | none => 0
  | some i => (i : Int)

/-- Python list indexing, including negative wrap-around; none models the
IndexError raised when the index is out of range on either side. -/
def pyIdx (l : List Int) (i : Int) : Option Int :=
  if 0 ≤ i then l.get? i.toNat
  else if -(l.length : Int) ≤ i then l.get? (i + l.length).toNat
  else none

/-- Loop body of Leg.get_date (strategy.py lines 204-220): starting from
delta = 0, exit as soon as target + delta and target - delta are both truthy
present, returning target + delta (the else arm returning target - delta is
kept for faithfulness but is unreachable at exit); otherwise grow delta by one
day and give up (return False, here none) once delta exceeds 5.  The fuel is
always at least 7, so the 0 branch is never reached. -/
def legGetDateGo (dates : List Int) (target : Int) : Nat → Int → Option Int
  | 0, _ => none
  | fuel + 1, delta =>
      if checkDateTruthy dates (target + delta) ∧ checkDateTruthy dates (target - delta) then
        if checkDateTruthy dates (target + delta) then some (target + delta)
        else some (target - delta)
      else
        if delta + 1 > 5 then none else legGetDateGo dates target fuel (delta + 1)

/-- Leg.get_date (strategy.py lines 204-220). -/
def legGetDate (dates : List Int) (date daysDelta : Int) : Option Int :=
  legGetDateGo dates (date + daysDelta) 7 0

/-- Loop body of PDS.get_date (pds.py lines 226-234): try date + delta, grow
delta by one day while the trial date is not truthy present, and give up once
delta exceeds 30.  Note the bound is on the accumulated delta itself, which
starts at the requested offset.  The fuel supplied by pdsGetDate covers every
reachable iteration, so the 0 branch is never reached. -/
def pdsGetDateGo (dates : List Int) (date : Int) : Nat → Int → Option Int
  | 0, _ => none
  | fuel + 1, delta =>
      if checkDateTruthy dates (date + delta) then some (date + delta)
      else
        if delta + 1 > 30 then none else pdsGetDateGo dates date fuel (delta + 1)

/-- PDS.get_date (pds.py lines 226-234). -/
def pdsGetDate (dates : List Int) (date daysDelta : Int) : Option Int :=
  pdsGetDateGo dates date ((31 - daysDelta).toNat + 1) daysDelta

/-!
Leg price resolution and the daily mark-to-market walk (strategy.py).
-/

/-- Price resolution in Leg.get_realized_pnl and Leg.get_unrealized_pnl
(strategy.py lines 98-101, 104-107, 137-140, 145-148).  For "bid" and "ask"
the code reads the attribute; for "mid" the code evaluates option.mid(), which
calls the float value of the mid property and therefore raises TypeError
(modelled as none). -/
def legGetPx : PxConv → Contract → Option Rat
  | PxConv.bid, c => some c.bid
  | PxConv.ask, c => some c.ask
  | PxConv.mid, _ => none

/-- Price resolution in the PDS walk (pds.py lines 135-136, 140, 143): a plain
getattr, so every convention including mid resolves to its property value. -/
def pdsGetPx : PxConv → Contract → Rat
  | PxConv.bid, c => c.bid
  | PxConv.ask, c => c.ask
  | PxConv.mid, c => c.mid

/-- Leg.get_multiplier (strategy.py lines 195-202): side sign times quantity
times the 100 contract multiplier. -/
def legMultiplier (side : Side) (quantity : Int) : Rat :=
  match side with
  | Side.l => (quantity : Rat) * 100
  | Side.s => -1 * (quantity : Rat) * 100

/-- The inner while loop of Leg.get_unrealized_pnl (strategy.py lines 142-159)
over the suffix of the trading-date list that starts at the open date: at each
date at most close, re-resolve the quote of the contract (find_option_exact,
modelled by the quotes function), read the close-convention price, record the
mark M * (price - base), rebase, and step to the next date (the break at the
last index coincides with running off the list).  Returns the recorded marks
together with the final reference price; none propagates a failed quote lookup
or price resolution. -/
def legWalk (quotes : Int → Option Contract) (conv : PxConv) (M : Rat)
    (close : Int) : List Int → Rat → Option (List Rat × Rat)
  | [], base => some ([], base)
  | d :: rest, base =>
      if d ≤ close then
        match (quotes d).bind (legGetPx conv) with
        | none => none
        | some p =>
            (legWalk quotes conv M close rest p).map
              (fun r => (M * (p - base) :: r.1, r.2))
      else some ([], base)

/-- The per-trade unrealized PnL computation of Leg.get_unrealized_pnl
(strategy.py lines 135-159): resolve the opening price of the trade contract
with the open convention, then walk the dates from open through close marking
against the close convention. -/
def legTradeMarks (quotes : Int → Option Contract) (openConv closeConv : PxConv)
    (M : Rat) (close : Int) (openContract : Contract) (ds : List Int) :
    Option (List Rat) :=
  match legGetPx openConv openContract with
  | none => none
  | some p0 => (legWalk quotes closeConv M close ds p0).map (·.1)

/-!
Leg trade generation (strategy.py lines 34-79).
-/

/-- Open cadence: fixed calendar-day interval or roll at expiration
(open_frequency_d field). -/
inductive Freq
  | roll
  | days (n : Int)
deriving DecidableEq, Repr

/-- Failure modes of generate_trade_dates: the InvalidCloseDateError raise, a
crashing lookup (KeyError / IndexError / empty-chain access), and exhaustion of
the recursion fuel standing in for the unbounded Python while loop. -/
inductive GenErr
  | invalidCloseDate
  | lookupFailure
  | fuelExhausted
deriving DecidableEq, Repr

/-- The while loop of Leg.generate_trade_dates (strategy.py lines 42-79),
recursing on the current candidate open date.  Each completed iteration
contributes one (open, close, contract) triple; the final zip in the Python
code truncates any trailing unmatched open date (including the popped one in
roll mode), which is why triples are only recorded for completed iterations.
The quote store lookup find_option_by_desc is modelled by the loader function
from quote date to chain; the close-date index expression
dates[check_date(option.expiration) - close_n_tday_before] uses the integer
view of check_date (0 when the expiration is absent) and Python list indexing
with negative wrap-around. -/
def legGenAux (dates : List Int) (loader : Int → Option OptionChain)
    (ty : OptType) (mny : Rat) (tenorDay : Int) (freq : Freq) (closeLead : Int)
    (lastOpen : Int) : Nat → Int → Except GenErr (List (Int × Int × Contract))
  | 0, _ => Except.error GenErr.fuelExhausted
  | fuel + 1, curOpen =>
      if curOpen ≤ lastOpen then
        match legGetDate dates curOpen tenorDay with
        | none => Except.ok []
        | some expy =>
            match (loader curOpen).bind (fun oc => oc.get_option expy ty mny) with
            | none => Except.error GenErr.lookupFailure
            | some opt =>
                match pyIdx dates (checkDateVal dates opt.expiration - closeLead) with
                | none => Except.error GenErr.lookupFailure
                | some closeD =>
                    if closeD ≤ curOpen then Except.error GenErr.invalidCloseDate
                    else
                      let nextOpen :=
                        match freq with
                        | Freq.roll => some opt.expiration
                        | Freq.days k => legGetDate dates curOpen k
                      match nextOpen with
                      | none => Except.ok [(curOpen, closeD, opt)]
                      | some nxt =>
                          (legGenAux dates loader ty mny tenorDay freq closeLead
                              lastOpen fuel nxt).map
                            (fun ts => (curOpen, closeD, opt) :: ts)
      else Except.ok []

/-- Leg.generate_trade_dates (strategy.py lines 34-79): start at the first
trading date and run the open loop.  An empty date sequence makes dates[0]
raise, modelled as a lookup failure. -/
def legGenerateTradeDates (dates : List Int) (loader : Int → Option OptionChain)
    (ty : OptType) (mny : Rat) (tenorDay : Int) (freq : Freq) (closeLead : Int)
    (lastOpen : Int) (fuel : Nat) : Except GenErr (List (Int × Int × Contract)) :=
  match dates.head? with
  | none => Except.error GenErr.lookupFailure
  | some d0 => legGenAux dates loader ty mny tenorDay freq closeLead lastOpen fuel d0

/-!
Capital-constrained PDS walk (pds.py).
-/

/-- PDS.get_margin (pds.py lines 223-224). -/
def pdsMargin (optS optL : Contract) : Rat :=
  max (optS.strike - optL.strike) 0 * 100

/-- PDS.get_multiplier (pds.py lines 214-221): floor division of available
capital by the margin requirement, times the signed 100 contract multiplier.
The division has no guard in the source; a zero margin raises
ZeroDivisionError, modelled as none. -/
def pdsMultiplier (side : Side) (capital margin : Rat) : Option Rat :=
  if margin = 0 then none
  else
    match side with
    | Side.l => some ((ratFloor (capital / margin) : Rat) * 100)
    | Side.s => some ((ratFloor (capital / margin) : Rat) * (-100))

/-- The inner while loop of PDS.get_unrealized_pnl for one trade (pds.py lines
134-171), over the suffix of the trading-date list starting at the open date.
State: the capital stored at the open date (re-read every iteration, and
overwritten when the current date is the open date itself), the reference
prices of the short and long contracts, and the running total of all marks in
the unrealized column (df.cumsum().iloc[-1], which spans every trade processed
so far).  Each iteration records (date, mark, capital written at that date)
where the mark combines the short and the long contribution; capital written is
max(initial capital + running total, 0), and the walk breaks as soon as that
value is exactly 0.  none propagates a failed exact quote lookup, the
ZeroDivisionError of a zero margin, and the IndexError of stepping past the
last trading date (the step dates[date_idx + 1] is unguarded in pds.py). -/
def pdsWalk (quotesS quotesL : Int → Option Contract) (closeConv : PxConv)
    (margin initCap : Rat) (openDate close : Int) :
    List Int → Rat → Rat → Rat → Rat → Option (List (Int × Rat × Rat))
  | [], _, _, _, _ => some []
  | d :: rest, capOpen, pS, pL, tot =>
      if d ≤ close then
        match (quotesS d).map (pdsGetPx closeConv),
              (quotesL d).map (pdsGetPx closeConv) with
        | some cS, some cL =>
            match pdsMultiplier Side.s capOpen margin,
                  pdsMultiplier Side.l capOpen margin with
            | some mS, some mL =>
                let mark := mS * (cS - pS) + mL * (cL - pL)
                let tot2 := tot + mark
                let newCap := max (initCap + tot2) 0
                if newCap = 0 then some [(d, mark, newCap)]
                else
                  match rest with
                  | [] => none
                  | _ :: _ =>
                      (pdsWalk quotesS quotesL closeConv margin initCap openDate
                          close rest (if d = openDate then newCap else capOpen)
                          cS cL tot2).map
                        (fun l => (d, mark, newCap) :: l)
            | _, _ => none
        | _, _ => none
      else some []

/-!
Drawdown (pds.py lines 36-38): (series - running maximum) / running maximum,
with the running maximum computed by np.fmax.accumulate.
-/

/-- Tail of the running maximum with accumulator. -/
def runMaxAux (m : Rat) : List Rat → List Rat
  | [] => []
  | x :: xs => max m x :: runMaxAux (max m x) xs

/-- Running maximum of a series (np.fmax.accumulate). -/
def runMax : List Rat → List Rat
  | [] => []
  | x :: xs => x :: runMaxAux x xs

/-- PDSStrategy.__get_drawdown (pds.py lines 36-38). -/
def drawdown (s : List Rat) : List Rat :=
  (s.zip (runMax s)).map (fun p => (p.1 - p.2) / p.2)

/-!
Helper lemmas about the list and association-list primitives.
-/

theorem foldlMin_cases {α : Type} [LinearOrder α] :
    ∀ (xs : List α) (x : α), xs.foldl min x = x ∨ xs.foldl min x ∈ xs := by
  intro xs
  induction xs with
  | nil => intro x; exact Or.inl rfl
  | cons y ys ih =>
      intro x
      rcases ih (min x y) with h | h
      · rcases min_cases x y with ⟨he, _⟩ | ⟨he, _⟩
        · exact Or.inl (by simpa [he] using h)
        · exact Or.inr (by simp [List.foldl, he] at h ⊢; simp [h])
      · exact Or.inr (List.mem_cons_of_mem _ h)

theorem listMin_mem {α : Type} [LinearOrder α] {l : List α} {m : α}
    (h : listMin l = some m) : m ∈ l := by
  cases l with
  | nil => simp [listMin] at h
  | cons x xs =>
      simp only [listMin, Option.some.injEq] at h
      subst h
      rcases foldlMin_cases xs x with h2 | h2
      · rw [h2]; exact List.mem_cons_self x xs
      · exact List.mem_cons_of_mem _ h2

theorem listMin_isSome {α : Type} [LinearOrder α] {l : List α} (h : l ≠ []) :
    ∃ m, listMin l = some m := by
  cases l with
  | nil => exact absurd rfl h
  | cons x xs => exact ⟨_, rfl⟩

theorem firstIdxOf_some_of_mem {α : Type} [DecidableEq α] {x : α} :
    ∀ {l : List α}, x ∈ l → ∃ i, firstIdxOf x l = some i := by
  intro l
  induction l with
  | nil => intro h; simp at h
  | cons y ys ih =>
      intro h
      by_cases hy : y = x
      · exact ⟨0, by simp [firstIdxOf, hy]⟩
      · rcases ih (by rcases List.mem_cons.1 h with h1 | h1; exact absurd h1.symm hy; exact h1) with ⟨i, hi⟩
        exact ⟨i + 1, by simp [firstIdxOf, hy, hi]⟩

theorem firstIdxOf_lt_length {α : Type} [DecidableEq α] {x : α} :
    ∀ {l : List α} {i : Nat}, firstIdxOf x l = some i → i < l.length := by
  intro l
  induction l with
  | nil => intro i h; simp [firstIdxOf] at h
  | cons y ys ih =>
      intro i h
      simp only [firstIdxOf] at h
      by_cases hy : y = x
      · simp [hy] at h
        simp only [List.length_cons]
        omega
      · simp [hy] at h
        rcases h with ⟨j, hj, rfl⟩
        have := ih hj
        simp only [List.length_cons]
        omega

theorem assocFind_mem {k : Int} :
    ∀ {C : List (Int × List Contract)} {g : List Contract},
      assocFind k C = some g → (k, g) ∈ C := by
  intro C
  induction C with
  | nil => intro g h; simp [assocFind] at h
  | cons p rest ih =>
      intro g h
      simp only [assocFind] at h
      by_cases hp : p.1 = k
      · simp [hp] at h
        exact List.mem_cons.2 (Or.inl (by cases p; simp_all))
      · simp [hp] at h
        exact List.mem_cons_of_mem _ (ih h)

theorem assocFind_some_of_key_mem {k : Int} :
    ∀ {C : List (Int × List Contract)}, k ∈ C.map (·.1) →
      ∃ g, assocFind k C = some g := by
  intro C
  induction C with
  | nil => intro h; simp at h
  | cons p rest ih =>
      intro h
      by_cases hp : p.1 = k
      · exact ⟨p.2, by simp [assocFind, hp]⟩
      · simp only [List.map_cons, List.mem_cons] at h
        rcases h with h | h
        · exact absurd h.symm hp
        · rcases ih h with ⟨g, hg⟩
          exact ⟨g, by simp [assocFind, hp, hg]⟩

theorem assocFind_map_snd (f : List Contract → List Contract) (k : Int) :
    ∀ C : List (Int × List Contract),
      assocFind k (C.map (fun p => (p.1, f p.2))) = (assocFind k C).map f := by
  intro C
  induction C with
  | nil => simp [assocFind]
  | cons p rest ih =>
      by_cases hp : p.1 = k
      · simp [assocFind, hp]
      · simp [assocFind, hp, ih]

theorem assocAppend_keys_mem {k : Int} {c : Contract} {k2 : Int} :
    ∀ {C : List (Int × List Contract)},
      k2 ∈ (assocAppend k c C).map (·.1) → k2 ∈ C.map (·.1) ∨ k2 = k := by
  intro C
  induction C with
  | nil => intro h; simp [assocAppend] at h; exact Or.inr h
  | cons p rest ih =>
      intro h
      by_cases hp : p.1 = k
      · simp only [assocAppend, if_pos hp, List.map_cons, List.mem_cons] at h
        exact Or.inl (by simp only [List.map_cons, List.mem_cons]; exact h)
      · simp only [assocAppend, if_neg hp, List.map_cons, List.mem_cons] at h
        rcases h with h | h
        · exact Or.inl (List.mem_cons.2 (Or.inl h))
        · rcases ih h with h2 | h2
          · exact Or.inl (List.mem_cons.2 (Or.inr h2))
          · exact Or.inr h2

theorem assocAppend_not_mem {k : Int} {c : Contract} :
    ∀ {C : List (Int × List Contract)}, k ∉ C.map (·.1) →
      assocAppend k c C = C ++ [(k, [c])] := by
  intro C
  induction C with
  | nil => intro _; rfl
  | cons p rest ih =>
      intro h
      have hp : p.1 ≠ k := by simp at h; exact fun he => h.1 he.symm
      have hr : k ∉ rest.map (·.1) := by simp at h ⊢; exact h.2
      simp [assocAppend, hp, ih hr]

theorem assocAppend_last {k : Int} {c : Contract} {g : List Contract} :
    ∀ {C : List (Int × List Contract)}, k ∉ C.map (·.1) →
      assocAppend k c (C ++ [(k, g)]) = C ++ [(k, g ++ [c])] := by
  intro C
  induction C with
  | nil => intro _; simp [assocAppend]
  | cons p rest ih =>
      intro h
      have hp : p.1 ≠ k := by simp at h; exact fun he => h.1 he.symm
      have hr : k ∉ rest.map (·.1) := by simp at h ⊢; exact h.2
      simp [assocAppend, hp, ih hr]

theorem popFirst_sub {m : Rat} :
    ∀ {os : List Contract} {ds : List Rat} {o : Contract} {os2 : List Contract}
      {ds2 : List Rat}, popFirst m os ds = some (o, os2, ds2) →
      o ∈ os ∧ ∀ x ∈ os2, x ∈ os := by
  intro os
  induction os with
  | nil => intro ds o os2 ds2 h; cases ds <;> simp [popFirst] at h
  | cons c cs ih =>
      intro ds o os2 ds2 h
      cases ds with
      | nil => simp [popFirst] at h
      | cons d ds =>
          simp only [popFirst] at h
          by_cases hd : d = m
          · simp [hd] at h
            refine ⟨?_, ?_⟩
            · rw [h.1]; exact List.mem_cons_self _ _
            · intro x hx; rw [← h.2.1] at hx; exact List.mem_cons_of_mem _ hx
          · rw [if_neg hd] at h
            rcases Option.map_eq_some'.1 h with ⟨r, hr, heq⟩
            obtain ⟨o2, os3, ds3⟩ := r
            simp only at heq
            cases heq
            rcases ih hr with ⟨h1, h2⟩
            refine ⟨List.mem_cons_of_mem _ h1, ?_⟩
            intro x hx
            rcases List.mem_cons.1 hx with h3 | h3
            · rw [h3]; exact List.mem_cons_self _ _
            · exact List.mem_cons_of_mem _ (h2 x h3)

theorem popFirst_some_of_mem {m : Rat} :
    ∀ {os : List Contract} {ds : List Rat}, os.length = ds.length → m ∈ ds →
      ∃ r, popFirst m os ds = some r := by
  intro os
  induction os with
  | nil => intro ds hl hm; cases ds; simp at hm; simp at hl
  | cons c cs ih =>
      intro ds hl hm
      cases ds with
      | nil => simp at hm
      | cons d ds =>
          by_cases hd : d = m
          · exact ⟨(c, cs, ds), by simp [popFirst, hd]⟩
          · have hm2 : m ∈ ds := by
              rcases List.mem_cons.1 hm with h | h
              · exact absurd h.symm hd
              · exact h
            rcases ih (by simpa using hl) hm2 with ⟨r, hr⟩
            exact ⟨(r.1, c :: r.2.1, d :: r.2.2), by simp [popFirst, hd, hr]⟩

theorem popLoop_sub {m : Rat} :
    ∀ (fuel : Nat) {os : List Contract} {ds : List Rat},
      ∀ x ∈ popLoop m fuel os ds, x ∈ os := by
  intro fuel
  induction fuel with
  | zero => intro os ds x hx; simp [popLoop] at hx
  | succ f ih =>
      intro os ds x hx
      rw [popLoop] at hx
      cases hpf : popFirst m os ds with
      | none => rw [hpf] at hx; simp at hx
      | some r =>
          obtain ⟨o, os2, ds2⟩ := r
          rw [hpf] at hx
          change x ∈ o :: popLoop m f os2 ds2 at hx
          rcases List.mem_cons.1 hx with h | h
          · rw [h]; exact (popFirst_sub hpf).1
          · exact (popFirst_sub hpf).2 x (ih x h)

theorem selectGroup_sub {tgt : Rat} {g : List Contract} :
    ∀ c ∈ selectGroup tgt g, c ∈ g := by
  intro c hc
  simp only [selectGroup] at hc
  cases hmin : listMin (g.map (fun o => ratAbs (o.moneyness - tgt))) with
  | none => rw [hmin] at hc; simp at hc
  | some m =>
      rw [hmin] at hc
      exact popLoop_sub g.length c hc

theorem selectGroup_ne_nil {tgt : Rat} {g : List Contract} (h : g ≠ []) :
    selectGroup tgt g ≠ [] := by
  have hlen : (g.map (fun o => ratAbs (o.moneyness - tgt))) ≠ [] := by
    simpa using h
  rcases listMin_isSome hlen with ⟨m, hm⟩
  have hmem : m ∈ g.map (fun o => ratAbs (o.moneyness - tgt)) := listMin_mem hm
  rcases @popFirst_some_of_mem m g _ (by simp) hmem with ⟨⟨o, os2, ds2⟩, hr⟩
  simp only [selectGroup, hm]
  cases g with
  | nil => exact absurd rfl h
  | cons c cs =>
      rw [List.length_cons, popLoop, hr]
      exact List.cons_ne_nil _ _

/-!
Well-formedness of a chain: distinct expiration keys, nonempty groups, every
contract filed under its own expiration with the identity fields of the chain.
Chains built from empty through add_option always satisfy it.
-/

def GoodChain (t : String) (q : Int) (C : List (Int × List Contract)) : Prop :=
  C.Pairwise (fun p1 p2 => p1.1 ≠ p2.1) ∧
    ∀ p ∈ C, p.2 ≠ [] ∧ ∀ c ∈ p.2,
      c.ticker = t ∧ c.quoteDate = q ∧ c.expiration = p.1

def Good (oc : OptionChain) : Prop :=
  GoodChain oc.ticker oc.quoteDate oc.chain

theorem assocAppend_good {t : String} {q : Int} {c : Contract}
    (hct : c.ticker = t) (hcq : c.quoteDate = q) :
    ∀ {C : List (Int × List Contract)}, GoodChain t q C →
      GoodChain t q (assocAppend c.expiration c C) := by
  intro C
  induction C with
  | nil =>
      intro _
      refine ⟨List.pairwise_singleton _ _, ?_⟩
      intro p hp
      simp only [assocAppend, List.mem_singleton] at hp
      subst hp
      exact ⟨List.cons_ne_nil _ _, by intro x hx; simp at hx; subst hx; exact ⟨hct, hcq, rfl⟩⟩
  | cons p rest ih =>
      intro hG
      rcases hG with ⟨hpw, hmem⟩
      rcases List.pairwise_cons.1 hpw with ⟨hhead, htail⟩
      by_cases hp : p.1 = c.expiration
      · simp only [assocAppend, if_pos hp]
        refine ⟨List.pairwise_cons.2 ⟨hhead, htail⟩, ?_⟩
        intro p2 hp2
        rcases List.mem_cons.1 hp2 with h | h
        · subst h
          rcases hmem p (List.mem_cons_self _ _) with ⟨hne, hall⟩
          refine ⟨by simp, ?_⟩
          intro x hx
          rcases List.mem_append.1 hx with h2 | h2
          · exact hall x h2
          · simp at h2; subst h2; exact ⟨hct, hcq, hp.symm⟩
        · exact hmem p2 (List.mem_cons_of_mem _ h)
      · simp only [assocAppend, if_neg hp]
        have hGrest : GoodChain t q rest := ⟨htail, fun p2 h2 => hmem p2 (List.mem_cons_of_mem _ h2)⟩
        rcases ih hGrest with ⟨hpw2, hmem2⟩
        refine ⟨List.pairwise_cons.2 ⟨?_, hpw2⟩, ?_⟩
        · intro p2 hp2
          rcases @assocAppend_keys_mem c.expiration c p2.1 rest
              (List.mem_map_of_mem (·.1) hp2) with h2 | h2
          · rcases List.mem_map.1 h2 with ⟨p3, hp3, he⟩
            have := hhead p3 hp3
            rw [← he]
            exact this
          · rw [h2]; exact hp
        · intro p2 hp2
          rcases List.mem_cons.1 hp2 with h | h
          · rw [h]; exact hmem p (List.mem_cons_self _ _)
          · exact hmem2 p2 h

theorem add_option_good {oc : OptionChain} {c : Contract} (h : Good oc) :
    Good (oc.add_option c).1 := by
  by_cases ht : c.ticker = oc.ticker
  · by_cases hq : c.quoteDate = oc.quoteDate
    · simp only [Good, OptionChain.add_option, if_neg (not_not.2 ht), if_neg (not_not.2 hq)]
      exact assocAppend_good ht hq h
    · simp only [Good, OptionChain.add_option, if_neg (not_not.2 ht), if_pos hq]
      exact h
  · simp only [Good, OptionChain.add_option, if_pos ht]
    exact h

theorem addAll_good :
    ∀ {cs : List Contract} {oc : OptionChain}, Good oc → Good (addAll oc cs) := by
  intro cs
  induction cs with
  | nil => intro oc h; exact h
  | cons c cs ih =>
      intro oc h
      exact ih (add_option_good h)

theorem add_option_fst_ticker (oc : OptionChain) (c : Contract) :
    (oc.add_option c).1.ticker = oc.ticker := by
  simp only [OptionChain.add_option]
  split
  · rfl
  · split <;> rfl

theorem add_option_fst_quoteDate (oc : OptionChain) (c : Contract) :
    (oc.add_option c).1.quoteDate = oc.quoteDate := by
  simp only [OptionChain.add_option]
  split
  · rfl
  · split <;> rfl

theorem addAll_ticker :
    ∀ (cs : List Contract) (oc : OptionChain), (addAll oc cs).ticker = oc.ticker := by
  intro cs
  induction cs with
  | nil => intro oc; rfl
  | cons c cs ih =>
      intro oc
      rw [addAll, List.foldl_cons]
      have := ih (oc.add_option c).1
      rw [addAll] at this
      rw [this, add_option_fst_ticker]

theorem addAll_quoteDate :
    ∀ (cs : List Contract) (oc : OptionChain), (addAll oc cs).quoteDate = oc.quoteDate := by
  intro cs
  induction cs with
  | nil => intro oc; rfl
  | cons c cs ih =>
      intro oc
      rw [addAll, List.foldl_cons]
      have := ih (oc.add_option c).1
      rw [addAll] at this
      rw [this, add_option_fst_quoteDate]

theorem addAll_append (oc : OptionChain) (cs ds : List Contract) :
    addAll oc (cs ++ ds) = addAll (addAll oc cs) ds := by
  simp [addAll, List.foldl_append]

theorem add_option_matched {oc : OptionChain} {c : Contract}
    (ht : c.ticker = oc.ticker) (hq : c.quoteDate = oc.quoteDate) :
    (oc.add_option c).1 = { oc with chain := assocAppend c.expiration c oc.chain } := by
  simp [OptionChain.add_option, ht, hq]

theorem addAll_into_last {t : String} {q k : Int} :
    ∀ (cs : List Contract) (C : List (Int × List Contract)) (g : List Contract),
      (∀ c ∈ cs, c.ticker = t ∧ c.quoteDate = q ∧ c.expiration = k) →
      k ∉ C.map (·.1) →
      addAll ⟨t, q, C ++ [(k, g)]⟩ cs = ⟨t, q, C ++ [(k, g ++ cs)]⟩ := by
  intro cs
  induction cs with
  | nil => intro C g _ _; simp [addAll]
  | cons c cs ih =>
      intro C g hall hk
      rcases hall c (List.mem_cons_self _ _) with ⟨ht, hq, he⟩
      simp only [addAll, List.foldl_cons]
      have hstep : ((⟨t, q, C ++ [(k, g)]⟩ : OptionChain).add_option c).1
          = ⟨t, q, C ++ [(k, g ++ [c])]⟩ := by
        rw [add_option_matched ht hq]
        simp only
        rw [he, assocAppend_last hk]
      rw [hstep]
      have := ih C (g ++ [c]) (fun c2 h2 => hall c2 (List.mem_cons_of_mem _ h2)) hk
      simp only [addAll] at this
      rw [this]
      simp

theorem addAll_new_group {t : String} {q k : Int}
    (cs : List Contract) (C : List (Int × List Contract))
    (hne : cs ≠ [])
    (hall : ∀ c ∈ cs, c.ticker = t ∧ c.quoteDate = q ∧ c.expiration = k)
    (hk : k ∉ C.map (·.1)) :
    addAll ⟨t, q, C⟩ cs = ⟨t, q, C ++ [(k, cs)]⟩ := by
  cases cs with
  | nil => exact absurd rfl hne
  | cons c cs =>
      rcases hall c (List.mem_cons_self _ _) with ⟨ht, hq, he⟩
      simp only [addAll, List.foldl_cons]
      have hstep : ((⟨t, q, C⟩ : OptionChain).add_option c).1 = ⟨t, q, C ++ [(k, [c])]⟩ := by
        rw [add_option_matched ht hq]
        simp only
        rw [he, assocAppend_not_mem hk]
      rw [hstep]
      have := addAll_into_last cs C [c] (fun c2 h2 => hall c2 (List.mem_cons_of_mem _ h2)) hk
      simp only [addAll] at this
      rw [this]
      simp

theorem addAll_groups {t : String} {q : Int} :
    ∀ (H C : List (Int × List Contract)),
      H.Pairwise (fun p1 p2 => p1.1 ≠ p2.1) →
      (∀ p ∈ H, p.1 ∉ C.map (·.1)) →
      (∀ p ∈ H, p.2 ≠ [] ∧ ∀ c ∈ p.2,
        c.ticker = t ∧ c.quoteDate = q ∧ c.expiration = p.1) →
      addAll ⟨t, q, C⟩ (H.map (·.2)).flatten = ⟨t, q, C ++ H⟩ := by
  intro H
  induction H with
  | nil => intro C _ _ _; simp [addAll]
  | cons p H ih =>
      intro C hpw hdisj hgood
      obtain ⟨k, g⟩ := p
      rcases List.pairwise_cons.1 hpw with ⟨hhead, htail⟩
      rcases hgood (k, g) (List.mem_cons_self _ _) with ⟨hne, hall⟩
      have hflat : (((k, g) :: H).map (·.2)).flatten
          = g ++ (H.map (·.2)).flatten := by simp
      rw [hflat, addAll_append]
      rw [addAll_new_group g C hne hall (hdisj (k, g) (List.mem_cons_self _ _))]
      have hdisj2 : ∀ p2 ∈ H, p2.1 ∉ (C ++ [(k, g)]).map (·.1) := by
        intro p2 hp2
        simp only [List.map_append, List.mem_append]
        push_neg
        refine ⟨hdisj p2 (List.mem_cons_of_mem _ hp2), ?_⟩
        simp only [List.map_cons, List.map_nil, List.mem_singleton]
        exact fun h => (hhead p2 hp2) (h ▸ rfl)
      have hgood2 : ∀ p2 ∈ H, p2.2 ≠ [] ∧ ∀ c ∈ p2.2,
          c.ticker = t ∧ c.quoteDate = q ∧ c.expiration = p2.1 :=
        fun p2 h2 => hgood p2 (List.mem_cons_of_mem _ h2)
      rw [ih (C ++ [(k, g)]) htail hdisj2 hgood2]
      simp

theorem filter_moneyness_structure {t : String} {q : Int}
    {C : List (Int × List Contract)} (hG : GoodChain t q C) (tgt : Rat) :
    OptionChain.filter_moneyness ⟨t, q, C⟩ tgt
      = ⟨t, q, C.map (fun p => (p.1, selectGroup tgt p.2))⟩ := by
  simp only [OptionChain.filter_moneyness]
  have hflat : (C.map (fun p => selectGroup tgt p.2))
      = ((C.map (fun p => (p.1, selectGroup tgt p.2))).map (·.2)) := by
    rw [List.map_map]
    rfl
  rw [hflat]
  have := @addAll_groups t q
      (C.map (fun p => (p.1, selectGroup tgt p.2))) []
      (by
        have := hG.1
        refine List.Pairwise.map _ ?_ this
        intro p1 p2 h
        exact h)
      (by intro p2 _; simp)
      (by
        intro p2 hp2
        rcases List.mem_map.1 hp2 with ⟨p3, hp3, he⟩
        rcases hG.2 p3 hp3 with ⟨hne3, hall3⟩
        refine ⟨?_, ?_⟩
        · rw [← he]
          exact selectGroup_ne_nil hne3
        · intro c hc
          rw [← he] at hc
          have hcg : c ∈ p3.2 := selectGroup_sub c hc
          have := hall3 c hcg
          rw [← he]
          exact this)
  rw [this]
  simp

theorem moneyness_expiry_comm {T : OptionChain} (hG : Good T) (e : Int) (m : Rat) :
    ((T.filter_moneyness m).filter_expiry e).bind firstContract
      = ((T.filter_expiry e).map (fun E => E.filter_moneyness m)).bind firstContract := by
  obtain ⟨t, q, C⟩ := T
  have hGC : GoodChain t q C := hG
  rw [filter_moneyness_structure hGC m]
  have hkeys : ((C.map (fun p => (p.1, selectGroup m p.2))).map (·.1)) = C.map (·.1) := by
    rw [List.map_map]
    rfl
  simp only [OptionChain.filter_expiry, hkeys]
  cases hmin : listMin ((C.map (·.1)).map (fun d => |d - e|)) with
  | none => simp
  | some mv =>
      dsimp only
      rcases firstIdxOf_some_of_mem (listMin_mem hmin) with ⟨i, hi⟩
      rw [hi]
      dsimp only
      have hilt : i < (C.map (·.1)).length := by
        have := firstIdxOf_lt_length hi
        simpa using this
      obtain ⟨k, hk⟩ : ∃ k, (C.map (·.1)).get? i = some k := by
        rw [List.get?_eq_get hilt]
        exact ⟨_, rfl⟩
      rw [hk]
      dsimp only
      have hkmem : k ∈ C.map (·.1) := List.get?_mem hk
      rcases assocFind_some_of_key_mem hkmem with ⟨g, hg⟩
      have hfM : assocFind k (C.map (fun p => (p.1, selectGroup m p.2)))
          = some (selectGroup m g) := by
        rw [assocFind_map_snd, hg]
        rfl
      rw [hg, hfM]
      dsimp only
      have hmemC : (k, g) ∈ C := assocFind_mem hg
      rcases hGC.2 (k, g) hmemC with ⟨hgne, hgall⟩
      have hL : addAll ⟨t, q, ([] : List (Int × List Contract))⟩ (selectGroup m g)
          = ⟨t, q, [(k, selectGroup m g)]⟩ := by
        have := @addAll_new_group t q k (selectGroup m g) []
          (selectGroup_ne_nil hgne)
          (fun c hc => hgall c (selectGroup_sub c hc))
          (by simp)
        simpa using this
      have hR : addAll ⟨t, q, ([] : List (Int × List Contract))⟩ g
          = ⟨t, q, [(k, g)]⟩ := by
        have := @addAll_new_group t q k g [] hgne hgall (by simp)
        simpa using this
      rw [hL, hR]
      have hGsing : GoodChain t q [(k, g)] := by
        refine ⟨List.pairwise_singleton _ _, ?_⟩
        intro p2 hp2
        simp only [List.mem_singleton] at hp2
        subst hp2
        exact ⟨hgne, hgall⟩
      simp only [Option.map_some', Option.some_bind]
      rw [filter_moneyness_structure hGsing m]
      simp [firstContract]

theorem good_empty (t : String) (q : Int) : Good ⟨t, q, []⟩ := by
  refine ⟨List.Pairwise.nil, ?_⟩
  intro p hp
  simp at hp

theorem filter_type_good (oc : OptionChain) (ty : OptType) :
    Good (oc.filter_type ty) := by
  simp only [OptionChain.filter_type]
  exact addAll_good (good_empty _ _)

theorem filter_type_quoteDate (oc : OptionChain) (ty : OptType) :
    (oc.filter_type ty).quoteDate = oc.quoteDate := by
  simp only [OptionChain.filter_type]
  rw [addAll_quoteDate]

theorem filter_moneyness_quoteDate (oc : OptionChain) (m : Rat) :
    (oc.filter_moneyness m).quoteDate = oc.quoteDate := by
  simp only [OptionChain.filter_moneyness]
  rw [addAll_quoteDate]

/-- Modelled from the spec, section 4.1: getOption composes filterType, then
filterExpiry, then filterMoneyness, and returns the single first contract of
the first remaining expiration group.  This is the comparison point for the
refinement claim about the composition order used by the code. -/
def specGetOption (oc : OptionChain) (e : Int) (ty : OptType) (m : Rat) :
    Option Contract :=
  ((oc.filter_type ty).filter_expiry e).map (fun E => E.filter_moneyness m)
    |>.bind firstContract

/-- Modelled from the spec, section 4.1: the same composition with filterDTE in
place of filterExpiry when the expiry is given as an integer day offset. -/
def specGetOptionDte (oc : OptionChain) (dte : Int) (ty : OptType) (m : Rat) :
    Option Contract :=
  ((oc.filter_type ty).filter_dte dte).map (fun E => E.filter_moneyness m)
    |>.bind firstContract

/-!
Concrete fixtures used by the claim theorems.
-/

/-- A put quoted on day 0 with bid 1, ask 2 and underlying price 100; only the
expiration and the strike vary across the fixtures. -/
def sampleContract (exp : Int) (strike : Rat) : Contract :=
  { ticker := "A", quoteDate := 0, expiration := exp, strike := strike,
    optType := OptType.put, priceOpen := 0, priceHigh := 0, priceLow := 0,
    priceClose := 0, bid := 1, ask := 2, underlyingPx := 100, iv := 0,
    delta := 0, gamma := 0, theta := 0, vega := 0, rho := 0 }

/-- One expiration group with three puts at moneyness 0.8, 0.9 and 1.0. -/
def c1Chain : OptionChain :=
  addAll ⟨"A", 0, []⟩
    [sampleContract 10 80, sampleContract 10 90, sampleContract 10 100]

/-- Two expirations, 7 and 30 days out, three puts each at moneyness 0.8, 0.9
and 1.0 (the concrete scenario of spec section 8). -/
def c3Chain : OptionChain :=
  addAll ⟨"A", 0, []⟩
    [sampleContract 7 80, sampleContract 7 90, sampleContract 7 100,
     sampleContract 30 80, sampleContract 30 90, sampleContract 30 100]

/-- C1: the claim states that filterMoneyness returns, per expiration group,
exactly the same contracts reordered by ascending distance from the target
moneyness.  In the code the pop-loop target min(moneyness_delta) is computed
once before the loop and never recomputed, so after the minimal-distance ties
are popped the next .index call raises ValueError and the loop breaks,
dropping every remaining contract: on a group of three puts at moneyness 0.8,
0.9, 1.0 with target 0.9 the output group holds only the 0.9 contract instead
of all three reordered. -/
theorem c1_filter_moneyness_drops_nonminimal :
    (c1Chain.filter_moneyness (9/10)).chain = [(10, [sampleContract 10 90])]
      ∧ c1Chain.chain
          = [(10, [sampleContract 10 80, sampleContract 10 90,
                   sampleContract 10 100])] := by
  constructor
  · norm_num [c1Chain, sampleContract, OptionChain.filter_moneyness, addAll,
      OptionChain.add_option, assocAppend, selectGroup, listMin, ratAbs,
      popLoop, popFirst, firstIdxOf, Contract.moneyness]
  · norm_num [c1Chain, sampleContract, addAll, OptionChain.add_option, assocAppend]

/-- C3: getOption as implemented (filterType, then filterMoneyness, then
filterExpiry or filterDTE) returns exactly the first contract of the single
remaining group of the spec-order composition (filterType, then filterExpiry
or filterDTE, then filterMoneyness), for every chain and every query; and on
the concrete chain with expirations 7 and 30 days out and three puts per
expiration at moneyness 0.8, 0.9, 1.0, getOption(7, put, 0.9) returns the
7-day moneyness-0.9 put. -/
theorem c3_get_option_refines_spec_order :
    (∀ (oc : OptionChain) (e : Int) (ty : OptType) (m : Rat),
        oc.get_option e ty m = specGetOption oc e ty m)
      ∧ (∀ (oc : OptionChain) (dte : Int) (ty : OptType) (m : Rat),
          oc.get_option_dte dte ty m = specGetOptionDte oc dte ty m)
      ∧ c3Chain.get_option_dte 7 OptType.put (9/10)
          = some (sampleContract 7 90) := by
  refine ⟨?_, ?_, ?_⟩
  · intro oc e ty m
    exact moneyness_expiry_comm (filter_type_good oc ty) e m
  · intro oc dte ty m
    have hq : ((oc.filter_type ty).filter_moneyness m).quoteDate
        = (oc.filter_type ty).quoteDate := filter_moneyness_quoteDate _ _
    simp only [OptionChain.get_option_dte, specGetOptionDte,
      OptionChain.filter_dte, hq]
    exact moneyness_expiry_comm (filter_type_good oc ty) _ m
  · norm_num [c3Chain, sampleContract, OptionChain.get_option_dte,
      OptionChain.filter_type, OptionChain.filter_moneyness,
      OptionChain.filter_dte, OptionChain.filter_expiry, addAll,
      OptionChain.add_option, assocAppend, assocFind, selectGroup, listMin,
      ratAbs, popLoop, popFirst, firstIdxOf, Contract.moneyness, firstContract]

/-!
Remaining fixtures for the calendar, generation, walk and stop-out claims.
-/

/-- The contract returned by the chain lookup in the C2 scenario: a put quoted
on day 0 that expires on day 1. -/
def c2Contract : Contract := sampleContract 1 90

/-- Quote store for the C2 scenario: a single chain on day 0 holding only
c2Contract. -/
def c2Loader : Int → Option OptionChain :=
  fun d => if d = 0 then some (addAll ⟨"A", 0, []⟩ [c2Contract]) else none

/-- Ten consecutive trading days. -/
def c2Dates : List Int := [0, 1, 2, 3, 4, 5, 6, 7, 8, 9]

/-- C2: the claim states that every generated trade satisfies
open < close ≤ expiration with all three dates in the trading sequence, and
that a violating close date aborts generation with InvalidCloseDateError.  The
code only checks close ≤ open: with close_n_tday_before = 3 and a matched
contract expiring at index 1, the close index 1 - 3 = -2 wraps around Python
list indexing to the eighth trading date, and the trade (open 0, close 8,
expiration 1) with close after expiration is recorded without any error. -/
theorem c2_generate_records_close_after_expiration :
    legGenerateTradeDates c2Dates c2Loader OptType.put (9/10) 1 (Freq.days 10) 3 0 4
        = Except.ok [(0, 8, c2Contract)]
      ∧ c2Contract.expiration = 1
      ∧ ¬((8 : Int) ≤ c2Contract.expiration) := by
  refine ⟨?_, by norm_num [c2Contract, sampleContract], by norm_num [c2Contract, sampleContract]⟩
  norm_num [legGenerateTradeDates, legGenAux, c2Dates, c2Loader, c2Contract,
    sampleContract, legGetDate, legGetDateGo, checkDateTruthy, checkDateFind,
    checkDateVal, pyIdx, firstIdxOf, OptionChain.get_option,
    OptionChain.filter_type, OptionChain.filter_moneyness,
    OptionChain.filter_expiry, addAll, OptionChain.add_option, assocAppend,
    assocFind, selectGroup, listMin, ratAbs, popLoop, popFirst,
    Contract.moneyness, firstContract, Int.toNat]

/-- C4: the claim states that the calendar resolvers return anchor + offset
whenever that date is present in the trading sequence, at every position
including position 0.  check_date returns the integer index, and the index 0
is falsy in Python, so a target sitting at position 0 is treated as absent:
Leg.get_date then exhausts its 5-day window against the left edge of the
calendar and signals no resolvable date, while PDS.get_date skips to the next
present date.  At positions at least 1 both return the target immediately. -/
theorem c4_get_date_misses_position_zero :
    (0 : Int) ∈ [(0 : Int), 1, 2]
      ∧ legGetDate [0, 1, 2] 0 0 = none
      ∧ pdsGetDate [0, 1, 2] 0 0 = some 1
      ∧ legGetDate [0, 1, 2, 3] 1 1 = some 2
      ∧ pdsGetDate [0, 1, 2, 3] 1 1 = some 2 := by
  refine ⟨by norm_num, ?_, ?_, ?_, ?_⟩ <;>
    norm_num [legGetDate, legGetDateGo, pdsGetDate, pdsGetDateGo,
      checkDateTruthy, checkDateFind, firstIdxOf]

/-- C5: the claim states that under the "mid" price convention the walk uses
(bid + ask) / 2 and succeeds.  The mid property itself is (bid + ask) / 2, and
the PDS walk resolves it through getattr, but the Leg realized and unrealized
walks evaluate option.mid(), calling the float value of the property, which
raises TypeError for every contract: price resolution under "mid" always
fails in strategy.py. -/
theorem c5_leg_mid_convention_crashes (c : Contract) :
    legGetPx PxConv.mid c = none
      ∧ c.mid = (c.bid + c.ask) / 2
      ∧ pdsGetPx PxConv.mid c = (c.bid + c.ask) / 2 :=
  ⟨rfl, rfl, rfl⟩

theorem assocAppend_find (k : Int) (c : Contract) :
    ∀ C, assocFind k (assocAppend k c C) = some ((assocFind k C).getD [] ++ [c]) := by
  intro C
  induction C with
  | nil => simp [assocAppend, assocFind]
  | cons p rest ih =>
      by_cases hp : p.1 = k
      · simp [assocAppend, assocFind, hp]
      · simp [assocAppend, assocFind, hp, ih]

/-- C8: add_option fails with TickerMismatchException when the ticker differs
and with DateMismatchException when the quote date differs, leaving the chain
unchanged in both cases (the raise precedes the dict update); when both
identity fields match it succeeds and appends the contract at the end of the
group of its expiration, creating the group if needed. -/
theorem c8_add_option_identity (oc : OptionChain) (c : Contract) :
    (c.ticker ≠ oc.ticker →
        oc.add_option c = (oc, some ChainError.tickerMismatch))
      ∧ (c.ticker = oc.ticker → c.quoteDate ≠ oc.quoteDate →
          oc.add_option c = (oc, some ChainError.dateMismatch))
      ∧ (c.ticker = oc.ticker → c.quoteDate = oc.quoteDate →
          (oc.add_option c).2 = none
            ∧ (oc.add_option c).1.chain = assocAppend c.expiration c oc.chain
            ∧ assocFind c.expiration (oc.add_option c).1.chain
                = some ((assocFind c.expiration oc.chain).getD [] ++ [c])) := by
  refine ⟨fun h => ?_, fun h1 h2 => ?_, fun h1 h2 => ?_⟩
  · simp [OptionChain.add_option, h]
  · simp [OptionChain.add_option, h1, h2]
  · simp [OptionChain.add_option, h1, h2, assocAppend_find]

/-- A contract whose ticker disagrees with the chain of the C8 witness. -/
def c8BadContract : Contract := { sampleContract 10 90 with ticker := "B" }

/-- Witness for C8 at concrete inputs: a mismatched ticker fails and leaves the
chain unchanged, and a matching add succeeds. -/
theorem c8_add_option_identity_witness :
    (⟨"A", 0, []⟩ : OptionChain).add_option c8BadContract
        = (⟨"A", 0, []⟩, some ChainError.tickerMismatch)
      ∧ ((⟨"A", 0, []⟩ : OptionChain).add_option (sampleContract 10 90)).2 = none :=
  ⟨(c8_add_option_identity _ _).1 (by decide),
   ((c8_add_option_identity _ _).2.2 (by decide) (by decide)).1⟩

theorem legWalk_sum (quotes : Int → Option Contract) (conv : PxConv) (M : Rat)
    (close : Int) :
    ∀ (ds : List Int) (base : Rat) (ms : List Rat) (b : Rat),
      legWalk quotes conv M close ds base = some (ms, b) →
      ms.sum = M * (b - base) := by
  intro ds
  induction ds with
  | nil =>
      intro base ms b h
      simp only [legWalk, Option.some.injEq, Prod.mk.injEq] at h
      rw [← h.1, ← h.2]
      simp
  | cons d rest ih =>
      intro base ms b h
      rw [legWalk] at h
      by_cases hd : d ≤ close
      · rw [if_pos hd] at h
        cases hq : (quotes d).bind (legGetPx conv) with
        | none => rw [hq] at h; simp at h
        | some p =>
            rw [hq] at h
            simp only at h
            rcases Option.map_eq_some'.1 h with ⟨r, hr, heq⟩
            obtain ⟨ms2, b2⟩ := r
            simp only at heq
            cases heq
            have := ih p ms2 _ hr
            simp only [List.sum_cons, this]
            ring
      · rw [if_neg hd] at h
        simp only [Option.some.injEq, Prod.mk.injEq] at h
        rw [← h.1, ← h.2]
        simp

theorem legWalk_gt (quotes : Int → Option Contract) (conv : PxConv) (M : Rat)
    (close : Int) :
    ∀ (ds : List Int) (base : Rat), (∀ x ∈ ds, close < x) →
      legWalk quotes conv M close ds base = some ([], base) := by
  intro ds base h
  cases ds with
  | nil => rfl
  | cons d rest =>
      rw [legWalk, if_neg (not_le.2 (h d (List.mem_cons_self _ _)))]

theorem legWalk_final (quotes : Int → Option Contract) (conv : PxConv) (M : Rat)
    (close : Int) :
    ∀ (ds : List Int) (base : Rat) (ms : List Rat) (b : Rat),
      ds.Pairwise (· < ·) → close ∈ ds →
      legWalk quotes conv M close ds base = some (ms, b) →
      (quotes close).bind (legGetPx conv) = some b := by
  intro ds
  induction ds with
  | nil => intro base ms b _ hc; simp at hc
  | cons d rest ih =>
      intro base ms b hpw hc h
      have hd : d ≤ close := by
        rcases List.mem_cons.1 hc with h1 | h1
        · exact le_of_eq h1.symm
        · exact le_of_lt ((List.pairwise_cons.1 hpw).1 close h1)
      rw [legWalk, if_pos hd] at h
      cases hq : (quotes d).bind (legGetPx conv) with
      | none => rw [hq] at h; simp at h
      | some p =>
          rw [hq] at h
          simp only at h
          rcases Option.map_eq_some'.1 h with ⟨r, hr, heq⟩
          obtain ⟨ms2, b2⟩ := r
          simp only at heq
          cases heq
          rcases List.mem_cons.1 hc with h1 | h1
          · subst h1
            have hrest : legWalk quotes conv M close rest p = some ([], p) :=
              legWalk_gt quotes conv M close rest p
                (fun x hx => (List.pairwise_cons.1 hpw).1 x hx)
            rw [hrest] at hr
            simp only [Option.some.injEq, Prod.mk.injEq] at hr
            rw [← hr.2]
            exact hq
          · exact ih p ms2 _ (List.pairwise_cons.1 hpw).2 h1 hr

/-- C6: for a fixed (non-capital-constrained) leg with equal open and close
price conventions, the daily unrealized marks over the dates from open through
close sum to multiplier * (close convention price - open convention price),
where the multiplier is the side sign times quantity times 100: the walk
rebases the reference price to the current price after each mark, so the sum
telescopes from the opening price to the price resolved at the close date.
Stated for every quote store, every walk that succeeds (price resolution under
the mid convention fails, see C5, making the marks undefined there), and every
sorted date suffix that starts at the open date and reaches the close date. -/
theorem c6_unrealized_marks_telescope
    (quotes : Int → Option Contract) (openConv closeConv : PxConv)
    (side : Side) (qty : Int) (openDate close : Int) (rest : List Int)
    (c0 : Contract) (ms : List Rat)
    (_hconv : openConv = closeConv)
    (hpw : (openDate :: rest).Pairwise (· < ·))
    (hclose : close ∈ openDate :: rest)
    (hm : legTradeMarks quotes openConv closeConv (legMultiplier side qty) close
        c0 (openDate :: rest) = some ms) :
    ∃ p0 pc, legGetPx openConv c0 = some p0
      ∧ (quotes close).bind (legGetPx closeConv) = some pc
      ∧ ms.sum = legMultiplier side qty * (pc - p0) := by
  rw [legTradeMarks] at hm
  cases hp0 : legGetPx openConv c0 with
  | none => rw [hp0] at hm; simp at hm
  | some p0 =>
      rw [hp0] at hm
      simp only at hm
      rcases Option.map_eq_some'.1 hm with ⟨⟨ms2, b⟩, hw, heq⟩
      simp only at heq
      subst heq
      exact ⟨p0, b, rfl, legWalk_final quotes closeConv _ close _ p0 ms2 b hpw hclose hw,
        legWalk_sum quotes closeConv _ close _ p0 ms2 b hw⟩

/-- The opening quote of the C6 witness trade: bid 5 on the open date. -/
def c6Open : Contract := { sampleContract 9 90 with bid := 5 }

/-- Re-quotes of the C6 witness contract: bid 5 on day 0, bid 7 on day 1 and
bid 4 on day 2. -/
def c6Quotes : Int → Option Contract :=
  fun d =>
    if d = 0 then some c6Open
    else if d = 1 then some { sampleContract 9 90 with bid := 7 }
    else if d = 2 then some { sampleContract 9 90 with bid := 4 }
    else none

/-- Witness for C6 at concrete inputs: a long one-lot leg marked on bid over
days 0, 1, 2 produces marks 0, 200, -300 whose sum is 100 * (4 - 5). -/
theorem c6_unrealized_marks_telescope_witness :
    ∃ p0 pc, legGetPx PxConv.bid c6Open = some p0
      ∧ (c6Quotes 2).bind (legGetPx PxConv.bid) = some pc
      ∧ ([0, 200, -300] : List Rat).sum = legMultiplier Side.l 1 * (pc - p0) :=
  c6_unrealized_marks_telescope c6Quotes PxConv.bid PxConv.bid Side.l 1 0 2 [1, 2]
    c6Open [0, 200, -300] rfl (by decide) (by decide)
    (by norm_num [legTradeMarks, legWalk, legGetPx, c6Quotes, c6Open,
      sampleContract, legMultiplier])

theorem pdsWalk_cons_inv {qS qL : Int → Option Contract} {conv : PxConv}
    {margin initCap : Rat} {openDate close : Int} {d : Int} {rest : List Int}
    {capOpen pS pL tot : Rat} {l : List (Int × Rat × Rat)}
    (h : pdsWalk qS qL conv margin initCap openDate close (d :: rest)
        capOpen pS pL tot = some l) :
    (¬ d ≤ close ∧ l = [])
      ∨ (∃ cS cL mark newCap, d ≤ close
          ∧ mark = (((ratFloor (capOpen / margin) : Rat) * (-100)) * (cS - pS)
              + ((ratFloor (capOpen / margin) : Rat) * 100) * (cL - pL))
          ∧ newCap = max (initCap + (tot + mark)) 0
          ∧ ((newCap = 0 ∧ l = [(d, mark, newCap)])
              ∨ (¬ newCap = 0 ∧ ∃ l2, l = (d, mark, newCap) :: l2
                  ∧ pdsWalk qS qL conv margin initCap openDate close rest
                      (if d = openDate then newCap else capOpen) cS cL
                      (tot + mark) = some l2))) := by
  rw [pdsWalk] at h
  by_cases hd : d ≤ close
  · rw [if_pos hd] at h
    right
    cases hqs : (qS d).map (pdsGetPx conv) with
    | none => rw [hqs] at h; simp at h
    | some cS =>
        cases hql : (qL d).map (pdsGetPx conv) with
        | none => rw [hqs, hql] at h; simp at h
        | some cL =>
            rw [hqs, hql] at h
            by_cases hmz : margin = 0
            · simp only [pdsMultiplier, if_pos hmz] at h
              simp at h
            · simp only [pdsMultiplier, if_neg hmz] at h
              refine ⟨cS, cL, _, _, hd, rfl, rfl, ?_⟩
              by_cases hz : max (initCap + (tot
                  + (((ratFloor (capOpen / margin) : Rat) * (-100)) * (cS - pS)
                    + ((ratFloor (capOpen / margin) : Rat) * 100) * (cL - pL)))) 0 = 0
              · rw [if_pos hz] at h
                simp only [Option.some.injEq] at h
                exact Or.inl ⟨hz, h.symm⟩
              · rw [if_neg hz] at h
                cases rest with
                | nil => simp at h
                | cons d2 rest2 =>
                    rcases Option.map_eq_some'.1 h with ⟨l2, hl2, heq⟩
                    exact Or.inr ⟨hz, l2, heq.symm, hl2⟩
  · rw [if_neg hd] at h
    simp only [Option.some.injEq] at h
    exact Or.inl ⟨hd, h.symm⟩

theorem pdsWalk_mem_dates {qS qL : Int → Option Contract} {conv : PxConv}
    {margin initCap : Rat} {openDate close : Int} :
    ∀ (ds : List Int) (capOpen pS pL tot : Rat) (l : List (Int × Rat × Rat)),
      pdsWalk qS qL conv margin initCap openDate close ds capOpen pS pL tot
          = some l →
      ∀ e ∈ l, e.1 ∈ ds := by
  intro ds
  induction ds with
  | nil =>
      intro capOpen pS pL tot l h e he
      simp only [pdsWalk, Option.some.injEq] at h
      rw [← h] at he
      simp at he
  | cons d rest ih =>
      intro capOpen pS pL tot l h e he
      rcases pdsWalk_cons_inv h with ⟨_, rfl⟩ | ⟨cS, cL, mark, newCap, _, _, _, hbr⟩
      · simp at he
      · rcases hbr with ⟨_, rfl⟩ | ⟨_, l2, rfl, hl2⟩
        · simp only [List.mem_singleton] at he
          rw [he]
          exact List.mem_cons_self _ _
        · rcases List.mem_cons.1 he with h1 | h1
          · rw [h1]; exact List.mem_cons_self _ _
          · exact List.mem_cons_of_mem _ (ih _ cS cL _ l2 hl2 e h1)

/-- C7: in the capital-constrained walk, once the capital written at a date t,
max(initial capital + running PnL, 0), is exactly 0, the per-trade while loop
breaks at t: every mark of that trade carries a date at most t.  Stated over
the walk of one trade on a strictly increasing date suffix. -/
theorem c7_capital_stopout_halts_walk
    (qS qL : Int → Option Contract) (conv : PxConv) (margin initCap : Rat)
    (openDate close : Int) :
    ∀ (ds : List Int) (capOpen pS pL tot : Rat) (l : List (Int × Rat × Rat))
      (t : Int) (m : Rat),
      ds.Pairwise (· < ·) →
      pdsWalk qS qL conv margin initCap openDate close ds capOpen pS pL tot
          = some l →
      (t, m, 0) ∈ l →
      ∀ e ∈ l, e.1 ≤ t := by
  intro ds
  induction ds with
  | nil =>
      intro capOpen pS pL tot l t m _ h hz
      simp only [pdsWalk, Option.some.injEq] at h
      rw [← h] at hz
      simp at hz
  | cons d rest ih =>
      intro capOpen pS pL tot l t m hpw h hz e he
      rcases pdsWalk_cons_inv h with ⟨_, rfl⟩ | ⟨cS, cL, mark, newCap, _, _, _, hbr⟩
      · simp at hz
      · rcases hbr with ⟨hcap0, rfl⟩ | ⟨hcapne, l2, rfl, hl2⟩
        · simp only [List.mem_singleton] at hz he
          simp only [Prod.mk.injEq] at hz
          rw [he]
          exact le_of_eq hz.1.symm
        · rcases List.mem_cons.1 hz with h1 | h1
          · exfalso
            have h3 := h1.symm
            simp only [Prod.mk.injEq] at h3
            exact hcapne h3.2.2
          · have htmem : t ∈ rest := by
              have := pdsWalk_mem_dates rest _ cS cL _ l2 hl2 (t, m, 0) h1
              simpa using this
            have hdt : d < t := (List.pairwise_cons.1 hpw).1 t htmem
            rcases List.mem_cons.1 he with h2 | h2
            · rw [h2]
              exact le_of_lt hdt
            · exact ih _ cS cL _ l2 t m (List.pairwise_cons.1 hpw).2 hl2 h1 e h2

/-- Short-leg quotes of the C7 witness trade: bid 1 on day 0, bid 2 on later
days through day 3. -/
def c7QuoteS : Int → Option Contract :=
  fun d =>
    if d = 0 then some { sampleContract 7 2 with bid := 1 }
    else if d ≤ 3 then some { sampleContract 7 2 with bid := 2 }
    else none

/-- Long-leg quotes of the C7 witness trade: bid 1 through day 3. -/
def c7QuoteL : Int → Option Contract :=
  fun d => if d ≤ 3 then some { sampleContract 7 1 with bid := 1 } else none

/-- Witness for C7 at concrete inputs: with margin 100 and initial capital 200
the short leg loses 200 on day 1, capital hits exactly 0 there, the walk stops
two days before the close date 3, and every recorded mark is dated at most 1. -/
theorem c7_capital_stopout_halts_walk_witness :
    pdsWalk c7QuoteS c7QuoteL PxConv.bid 100 200 0 3 [0, 1, 2, 3] 200 1 1 0
        = some [(0, 0, 200), (1, -200, 0)]
      ∧ (0 : Int) ≤ 1 := by
  have hwalk : pdsWalk c7QuoteS c7QuoteL PxConv.bid 100 200 0 3 [0, 1, 2, 3]
      200 1 1 0 = some [(0, 0, 200), (1, -200, 0)] := by
    norm_num [pdsWalk, c7QuoteS, c7QuoteL, sampleContract, pdsGetPx,
      pdsMultiplier, ratFloor]
  refine ⟨hwalk, ?_⟩
  exact c7_capital_stopout_halts_walk c7QuoteS c7QuoteL PxConv.bid 100 200 0 3
    [0, 1, 2, 3] 200 1 1 0 [(0, 0, 200), (1, -200, 0)] 1 (-200) (by decide)
    hwalk (by simp) (0, 0, 200) (by simp)

theorem runMaxAux_nonpos :
    ∀ (xs : List Rat) (m : Rat), 0 < m →
      ∀ p ∈ xs.zip (runMaxAux m xs), (p.1 - p.2) / p.2 ≤ 0 := by
  intro xs
  induction xs with
  | nil => intro m _ p hp; simp [runMaxAux] at hp
  | cons x xs ih =>
      intro m hm p hp
      rw [runMaxAux] at hp
      simp only [List.zip_cons_cons, List.mem_cons] at hp
      rcases hp with hp | hp
      · rw [hp]
        refine div_nonpos_iff.mpr (Or.inr ⟨?_, ?_⟩)
        · simp only [sub_nonpos]
          exact le_max_right m x
        · exact le_of_lt (lt_of_lt_of_le hm (le_max_left m x))
      · exact ih (max m x) (lt_of_lt_of_le hm (le_max_left m x)) p hp

/-- C9: the drawdown series (capital - running maximum) / running maximum is
non-positive at every date, for every aggregated capital series whose first
entry (the initial capital) is positive; the running maximum then stays
positive and always dominates the current value.  On series with a
non-positive first entry the quotient can be ill defined (division by zero in
numpy) or positive, which the program never produces under a positive initial
capital. -/
theorem c9_drawdown_nonpositive (x : Rat) (xs : List Rat) (hx : 0 < x) :
    ∀ d ∈ drawdown (x :: xs), d ≤ 0 := by
  intro d hd
  simp only [drawdown, runMax, List.zip_cons_cons, List.map_cons,
    List.mem_cons] at hd
  rcases hd with hd | hd
  · rw [hd]
    simp
  · rcases List.mem_map.1 hd with ⟨p, hp, he⟩
    rw [← he]
    exact runMaxAux_nonpos xs x hx p hp

/-- Witness for C9 at concrete inputs: on the series 2, 1 the second drawdown
entry is (1 - 2) / 2 and is non-positive. -/
theorem c9_drawdown_nonpositive_witness :
    ((1 : Rat) - 2) / 2 ∈ drawdown [2, 1] ∧ ((1 : Rat) - 2) / 2 ≤ 0 :=
  ⟨by norm_num [drawdown, runMax, runMaxAux],
   c9_drawdown_nonpositive 2 [1] (by norm_num) _
     (by norm_num [drawdown, runMax, runMaxAux])⟩

/-- C10: get_multiplier divides available capital by the margin with no guard
on the divisor, and the margin max(short strike - long strike, 0) * 100 is 0
exactly when the short strike is at most the long strike: for every such pair
the multiplier computation raises ZeroDivisionError at every marking step,
so the walk requires short strike > long strike, in which case the
computation succeeds with floor(capital / margin) times the signed 100. -/
theorem c10_multiplier_divides_by_zero_margin
    (optS optL : Contract) (cap : Rat) (side : Side) :
    (optS.strike ≤ optL.strike →
        pdsMargin optS optL = 0
          ∧ pdsMultiplier side cap (pdsMargin optS optL) = none)
      ∧ (optL.strike < optS.strike →
          pdsMargin optS optL ≠ 0
            ∧ pdsMultiplier side cap (pdsMargin optS optL)
                = some ((⌊cap / pdsMargin optS optL⌋ : Rat)
                    * (match side with | Side.l => 100 | Side.s => -100))) := by
  constructor
  · intro h
    have hm : pdsMargin optS optL = 0 := by
      simp only [pdsMargin]
      rw [max_eq_right (sub_nonpos.2 h)]
      simp
    exact ⟨hm, by simp [pdsMultiplier, hm]⟩
  · intro h
    have hpos : 0 < pdsMargin optS optL := by
      simp only [pdsMargin]
      have h1 : 0 < optS.strike - optL.strike := sub_pos.2 h
      rw [max_eq_left (le_of_lt h1)]
      nlinarith
    refine ⟨ne_of_gt hpos, ?_⟩
    simp only [pdsMultiplier, if_neg (ne_of_gt hpos), ratFloor_eq_floor]
    cases side <;> simp

/-- Witness for C10 at concrete inputs: strikes 1 and 2 give margin 0 and a
failed multiplier, strikes 2 and 1 give a nonzero margin. -/
theorem c10_multiplier_divides_by_zero_margin_witness :
    pdsMultiplier Side.s 500
        (pdsMargin (sampleContract 7 1) (sampleContract 7 2)) = none
      ∧ pdsMargin (sampleContract 7 2) (sampleContract 7 1) ≠ 0 :=
  ⟨((c10_multiplier_divides_by_zero_margin (sampleContract 7 1)
        (sampleContract 7 2) 500 Side.s).1 (by norm_num [sampleContract])).2,
   ((c10_multiplier_divides_by_zero_margin (sampleContract 7 2)
        (sampleContract 7 1) 500 Side.s).2 (by norm_num [sampleContract])).1⟩

end Backtest
